import Mathlib

/-!
Shallow embedding of the `gspot` tokenizer (src/src/token/mod.rs).

The Rust lexer owns a `Peekable<Chars>` over the input; we model that cursor
as the remaining `List Char`.  Each Rust helper (`skip_whitespace`,
`keep_reading`, `peek`/`read_char`) becomes a pure function on that list, and
`Lexer::next` becomes `next : List Char → LexStep × List Char`, returning the
outcome together with the advanced cursor.  The Rust code calls
`str::parse::<usize>(..).expect(..)`, which aborts the process when the digit
run overflows `usize`; that abort is modelled by the `LexStep.panic` outcome
(distinct from a produced token and from end of input).
-/

namespace Gspot

/-- The `Token` enum from src/src/token/mod.rs, with the source's variant
names (`Lparen`, `Lsquirlybrace`, ... ). -/
inductive Token where
  | Let
  | Function
  | True
  | False
  | If
  | Else
  | Return
  | Equal
  | NotEqual
  | Illegal
  | Assign
  | Plus
  | Comma
  | Semicolon
  | Lparen
  | Rparen
  | Lsquirlybrace
  | Rsquirlybrace
  | Minus
  | Bang
  | Asterisk
  | Slash
  | Lt
  | Gt
  | Identifier (s : String)
  | Int (n : Nat)
  deriving Repr, DecidableEq

/-- The static `KEYWORDS` map (`phf_map`) from the source, as an association
list: reserved word text to its token. -/
def KEYWORDS : List (String × Token) :=
  [("true", Token.True), ("false", Token.False), ("fn", Token.Function),
   ("let", Token.Let), ("if", Token.If), ("else", Token.Else),
   ("return", Token.Return)]

/-- Rust `KEYWORDS.get_entry(&ident)` projected to the value: exact, case-sensitive,
whole-string lookup. -/
def keywordLookup (s : String) : Option Token :=
  (KEYWORDS.find? (fun p => p.1 == s)).map Prod.snd

/-- Rust `char::is_whitespace`: the Unicode White_Space property, written out
over the code point.  Note it holds for more characters than space, tab,
newline and carriage return (e.g. U+000B, U+000C, U+0085, U+00A0). -/
def rustIsWhitespace (c : Char) : Bool :=
  c.toNat = 9 || c.toNat = 10 || c.toNat = 11 || c.toNat = 12 || c.toNat = 13 ||
  c.toNat = 32 || c.toNat = 133 || c.toNat = 160 || c.toNat = 5760 ||
  (8192 ≤ c.toNat && c.toNat ≤ 8202) || c.toNat = 8232 || c.toNat = 8233 ||
  c.toNat = 8239 || c.toNat = 8287 || c.toNat = 12288

/-- Rust `char::is_digit(10)`: an ASCII decimal digit. -/
def isAsciiDigit (c : Char) : Bool :=
  48 ≤ c.toNat && c.toNat ≤ 57

/-- Rust `char::is_ascii_alphabetic`. -/
def isAsciiAlphabetic (c : Char) : Bool :=
  (65 ≤ c.toNat && c.toNat ≤ 90) || (97 ≤ c.toNat && c.toNat ≤ 122)

/-- The characters that have a dedicated arm in the `match` of `Lexer::next`
(single-character tokens plus the two lookahead starters), by code point. -/
def isOperatorChar (c : Char) : Bool :=
  c.toNat = 42 || c.toNat = 33 || c.toNat = 47 || c.toNat = 62 || c.toNat = 60 ||
  c.toNat = 45 || c.toNat = 43 || c.toNat = 44 || c.toNat = 61 || c.toNat = 59 ||
  c.toNat = 40 || c.toNat = 41 || c.toNat = 123 || c.toNat = 125

/-- The method `Lexer::skip_whitespace`: drop the maximal leading run of characters
satisfying `char::is_whitespace`. -/
def skipWhitespace : List Char → List Char
  | [] => []
  | c :: cs => if rustIsWhitespace c then skipWhitespace cs else c :: cs

/-- The method `Lexer::keep_reading` without the seed character: greedily take the
maximal leading run satisfying `f`, returning (run, rest of cursor). -/
def keepReading (f : Char → Bool) : List Char → List Char × List Char
  | [] => ([], [])
  | c :: cs =>
    if f c then
      match keepReading f cs with
      | (run, rest) => (c :: run, rest)
    else ([], c :: cs)

/-- The value `usize::MAX` on the 64-bit targets the crate builds for. -/
def USIZE_MAX : Nat := 2 ^ 64 - 1

/-- The base-10 value of a digit run, as `str::parse::<usize>` accumulates
it. -/
def digitsVal (l : List Char) : Nat :=
  l.foldl (fun acc c => 10 * acc + (c.toNat - 48)) 0

/-- Rust `str::parse::<usize>` on a nonempty all-digit string: the value when it
fits in `usize`, `none` (an `Err`, which the source then `.expect`s) on
overflow. -/
def parseUsize (l : List Char) : Option Nat :=
  if digitsVal l ≤ USIZE_MAX then some (digitsVal l) else none

/-- Outcome of one `Lexer::next` call: a token (`Some(tok)` in Rust), end of
the iterator (`None`), or a process abort from `.expect` on integer
overflow. -/
inductive LexStep where
  | tok (t : Token)
  | eof
  | panic
  deriving Repr, DecidableEq

/-- The dispatch inside `Lexer::next` once a first character `c` has been
read (after whitespace skipping), with `cs` the rest of the cursor.  Mirrors
the Rust `match self.read_char()` arm by arm, in source order. -/
def nextCore (c : Char) (cs : List Char) : LexStep × List Char :=
  if c = '*' then (LexStep.tok Token.Asterisk, cs)
  else if c = '!' then
    match cs with
    | '=' :: rest => (LexStep.tok Token.NotEqual, rest)
    | _ => (LexStep.tok Token.Bang, cs)
  else if c = '/' then (LexStep.tok Token.Slash, cs)
  else if c = '>' then (LexStep.tok Token.Gt, cs)
  else if c = '<' then (LexStep.tok Token.Lt, cs)
  else if c = '-' then (LexStep.tok Token.Minus, cs)
  else if c = '+' then (LexStep.tok Token.Plus, cs)
  else if c = ',' then (LexStep.tok Token.Comma, cs)
  else if c = '=' then
    match cs with
    | '=' :: rest => (LexStep.tok Token.Equal, rest)
    | _ => (LexStep.tok Token.Assign, cs)
  else if c = ';' then (LexStep.tok Token.Semicolon, cs)
  else if c = '(' then (LexStep.tok Token.Lparen, cs)
  else if c = ')' then (LexStep.tok Token.Rparen, cs)
  else if c = '\x7b' then (LexStep.tok Token.Lsquirlybrace, cs)
  else if c = '\x7d' then (LexStep.tok Token.Rsquirlybrace, cs)
  else if isAsciiDigit c then
    match keepReading isAsciiDigit cs with
    | (run, rest) =>
      match parseUsize (c :: run) with
      | some n => (LexStep.tok (Token.Int n), rest)
      | none => (LexStep.panic, rest)
  else if isAsciiAlphabetic c then
    match keepReading isAsciiAlphabetic cs with
    | (run, rest) =>
      match keywordLookup (String.mk (c :: run)) with
      | some t => (LexStep.tok t, rest)
      | none => (LexStep.tok (Token.Identifier (String.mk (c :: run))), rest)
  else (LexStep.tok Token.Illegal, cs)

/-- The method `Lexer::next`: skip whitespace, then read and classify one character;
empty cursor signals iterator exhaustion (`None`). -/
def next (input : List Char) : LexStep × List Char :=
  match skipWhitespace input with
  | [] => (LexStep.eof, [])
  | c :: cs => nextCore c cs

/-- Draining the iterator with explicit fuel: collect tokens until `next`
signals exhaustion (or the process would abort). -/
def tokensFuel : Nat → List Char → List Token
  | 0, _ => []
  | fuel + 1, input =>
    match next input with
    | (LexStep.tok t, rest) => t :: tokensFuel fuel rest
    | (LexStep.eof, _) => []
    | (LexStep.panic, _) => []

/-- Rust `lexer.into_iter().collect::<Vec<Token>>()`: drain all tokens.  Fuel
`input.length + 1` always suffices (proved below). -/
def tokens (input : List Char) : List Token :=
  tokensFuel (input.length + 1) input

theorem skipWhitespace_cons_of_not_ws (c : Char) (cs : List Char)
    (h : rustIsWhitespace c = false) : skipWhitespace (c :: cs) = c :: cs := by
  simp [skipWhitespace, h]

theorem skipWhitespace_length (l : List Char) :
    (skipWhitespace l).length ≤ l.length := by
  induction l with
  | nil => simp [skipWhitespace]
  | cons c cs ih =>
    simp only [skipWhitespace]
    split
    · exact Nat.le_succ_of_le ih
    · exact Nat.le_refl _

theorem keepReading_length (f : Char → Bool) (l : List Char) :
    (keepReading f l).2.length ≤ l.length := by
  induction l with
  | nil => simp [keepReading]
  | cons c cs ih =>
    simp only [keepReading]
    split
    · cases h : keepReading f cs with
      | mk run rest => simp only [h] at ih ⊢; exact Nat.le_succ_of_le ih
    · simp

theorem keepReading_append (f : Char → Bool) (l1 l2 : List Char)
    (h1 : ∀ c ∈ l1, f c = true)
    (h2 : ∀ c, l2.head? = some c → f c = false) :
    keepReading f (l1 ++ l2) = (l1, l2) := by
  induction l1 with
  | nil =>
    cases l2 with
    | nil => simp [keepReading]
    | cons c cs => simp [keepReading, h2 c rfl]
  | cons c cs ih =>
    have hc : f c = true := h1 c (List.mem_cons_self c cs)
    have ih' := ih (fun x hx => h1 x (List.mem_cons_of_mem c hx))
    simp [keepReading, hc, ih']

theorem keepReading_mem (f : Char → Bool) (l : List Char) :
    ∀ c ∈ (keepReading f l).1, f c = true := by
  induction l with
  | nil => simp [keepReading]
  | cons c cs ih =>
    simp only [keepReading]
    split
    · cases h : keepReading f cs with
      | mk run rest =>
        simp only [h] at ih ⊢
        intro x hx
        rcases List.mem_cons.mp hx with h' | h'
        · subst h'; assumption
        · exact ih x h'
    · simp

theorem ne_of_pred (p : Char → Bool) {c d : Char}
    (h : p c = true) (hd : p d = false) : c ≠ d := by
  intro he
  subst he
  rw [h] at hd
  exact Bool.noConfusion hd

theorem op_facts (c : Char) (h : isOperatorChar c = false) :
    c ≠ '*' ∧ c ≠ '!' ∧ c ≠ '/' ∧ c ≠ '>' ∧ c ≠ '<' ∧ c ≠ '-' ∧ c ≠ '+' ∧
    c ≠ ',' ∧ c ≠ '=' ∧ c ≠ ';' ∧ c ≠ '(' ∧ c ≠ ')' ∧ c ≠ '\x7b' ∧ c ≠ '\x7d' := by
  refine ⟨?_, ?_, ?_, ?_, ?_, ?_, ?_, ?_, ?_, ?_, ?_, ?_, ?_, ?_⟩ <;>
    exact (ne_of_pred isOperatorChar (by decide) h).symm

theorem digit_not_op (c : Char) (h : isAsciiDigit c = true) :
    isOperatorChar c = false := by
  simp only [isAsciiDigit, Bool.and_eq_true, decide_eq_true_eq] at h
  simp only [isOperatorChar, Bool.or_eq_false_iff, decide_eq_false_iff_not]
  omega

theorem alpha_not_op (c : Char) (h : isAsciiAlphabetic c = true) :
    isOperatorChar c = false := by
  simp only [isAsciiAlphabetic, Bool.or_eq_true, Bool.and_eq_true, decide_eq_true_eq] at h
  simp only [isOperatorChar, Bool.or_eq_false_iff, decide_eq_false_iff_not]
  omega

theorem alpha_not_digit (c : Char) (h : isAsciiAlphabetic c = true) :
    isAsciiDigit c = false := by
  simp only [isAsciiAlphabetic, Bool.or_eq_true, Bool.and_eq_true, decide_eq_true_eq] at h
  simp only [isAsciiDigit, Bool.and_eq_false_iff, decide_eq_false_iff_not]
  omega

theorem digit_not_ws (c : Char) (h : isAsciiDigit c = true) :
    rustIsWhitespace c = false := by
  simp only [isAsciiDigit, Bool.and_eq_true, decide_eq_true_eq] at h
  simp only [rustIsWhitespace, Bool.or_eq_false_iff, Bool.and_eq_false_iff,
    decide_eq_false_iff_not]
  omega

theorem alpha_not_ws (c : Char) (h : isAsciiAlphabetic c = true) :
    rustIsWhitespace c = false := by
  simp only [isAsciiAlphabetic, Bool.or_eq_true, Bool.and_eq_true, decide_eq_true_eq] at h
  simp only [rustIsWhitespace, Bool.or_eq_false_iff, Bool.and_eq_false_iff,
    decide_eq_false_iff_not]
  omega

theorem op_not_ws (c : Char) (h : isOperatorChar c = true) :
    rustIsWhitespace c = false := by
  simp only [isOperatorChar, Bool.or_eq_true, decide_eq_true_eq] at h
  simp only [rustIsWhitespace, Bool.or_eq_false_iff, Bool.and_eq_false_iff,
    decide_eq_false_iff_not]
  omega

theorem nextCore_spec (c : Char) (cs : List Char) :
    (nextCore c cs).1 ≠ LexStep.eof ∧ (nextCore c cs).2.length ≤ cs.length := by
  unfold nextCore
  by_cases h1 : c = '*'
  · rw [if_pos h1]; exact ⟨by simp, Nat.le_refl _⟩
  rw [if_neg h1]
  by_cases h2 : c = '!'
  · rw [if_pos h2]
    refine ⟨?_, ?_⟩ <;> split <;> simp
  rw [if_neg h2]
  by_cases h3 : c = '/'
  · rw [if_pos h3]; exact ⟨by simp, Nat.le_refl _⟩
  rw [if_neg h3]
  by_cases h4 : c = '>'
  · rw [if_pos h4]; exact ⟨by simp, Nat.le_refl _⟩
  rw [if_neg h4]
  by_cases h5 : c = '<'
  · rw [if_pos h5]; exact ⟨by simp, Nat.le_refl _⟩
  rw [if_neg h5]
  by_cases h6 : c = '-'
  · rw [if_pos h6]; exact ⟨by simp, Nat.le_refl _⟩
  rw [if_neg h6]
  by_cases h7 : c = '+'
  · rw [if_pos h7]; exact ⟨by simp, Nat.le_refl _⟩
  rw [if_neg h7]
  by_cases h8 : c = ','
  · rw [if_pos h8]; exact ⟨by simp, Nat.le_refl _⟩
  rw [if_neg h8]
  by_cases h9 : c = '='
  · rw [if_pos h9]
    refine ⟨?_, ?_⟩ <;> split <;> simp
  rw [if_neg h9]
  by_cases h10 : c = ';'
  · rw [if_pos h10]; exact ⟨by simp, Nat.le_refl _⟩
  rw [if_neg h10]
  by_cases h11 : c = '('
  · rw [if_pos h11]; exact ⟨by simp, Nat.le_refl _⟩
  rw [if_neg h11]
  by_cases h12 : c = ')'
  · rw [if_pos h12]; exact ⟨by simp, Nat.le_refl _⟩
  rw [if_neg h12]
  by_cases h13 : c = '\x7b'
  · rw [if_pos h13]; exact ⟨by simp, Nat.le_refl _⟩
  rw [if_neg h13]
  by_cases h14 : c = '\x7d'
  · rw [if_pos h14]; exact ⟨by simp, Nat.le_refl _⟩
  rw [if_neg h14]
  by_cases h15 : isAsciiDigit c = true
  · rw [if_pos h15]
    have hkl := keepReading_length isAsciiDigit cs
    refine ⟨?_, ?_⟩ <;>
      (split
       rename_i x run rest heq
       rw [heq] at hkl
       split <;> simp_all)
  rw [if_neg h15]
  by_cases h16 : isAsciiAlphabetic c = true
  · rw [if_pos h16]
    have hkl := keepReading_length isAsciiAlphabetic cs
    refine ⟨?_, ?_⟩ <;>
      (split
       rename_i x run rest heq
       rw [heq] at hkl
       split <;> simp_all)
  rw [if_neg h16]
  exact ⟨by simp, Nat.le_refl _⟩

theorem nextCore_ne_eof (c : Char) (cs : List Char) :
    (nextCore c cs).1 ≠ LexStep.eof :=
  (nextCore_spec c cs).1

theorem nextCore_length (c : Char) (cs : List Char) :
    (nextCore c cs).2.length ≤ cs.length :=
  (nextCore_spec c cs).2

theorem nextCore_bang (cs : List Char) :
    nextCore '!' cs =
      match cs with
      | '=' :: rest => (LexStep.tok Token.NotEqual, rest)
      | _ => (LexStep.tok Token.Bang, cs) := by
  unfold nextCore
  rw [if_neg (by decide), if_pos rfl]

theorem nextCore_assign (cs : List Char) :
    nextCore '=' cs =
      match cs with
      | '=' :: rest => (LexStep.tok Token.Equal, rest)
      | _ => (LexStep.tok Token.Assign, cs) := by
  unfold nextCore
  rw [if_neg (by decide), if_neg (by decide), if_neg (by decide), if_neg (by decide),
    if_neg (by decide), if_neg (by decide), if_neg (by decide), if_neg (by decide),
    if_pos rfl]

theorem nextCore_digit (c : Char) (cs : List Char) (h : isAsciiDigit c = true) :
    nextCore c cs =
      if digitsVal (c :: (keepReading isAsciiDigit cs).1) ≤ USIZE_MAX then
        (LexStep.tok (Token.Int (digitsVal (c :: (keepReading isAsciiDigit cs).1))),
         (keepReading isAsciiDigit cs).2)
      else (LexStep.panic, (keepReading isAsciiDigit cs).2) := by
  obtain ⟨n1, n2, n3, n4, n5, n6, n7, n8, n9, n10, n11, n12, n13, n14⟩ :=
    op_facts c (digit_not_op c h)
  unfold nextCore
  rw [if_neg n1, if_neg n2, if_neg n3, if_neg n4, if_neg n5, if_neg n6, if_neg n7,
    if_neg n8, if_neg n9, if_neg n10, if_neg n11, if_neg n12, if_neg n13, if_neg n14,
    if_pos h]
  cases hkr : keepReading isAsciiDigit cs with
  | mk run rest =>
    simp only [parseUsize]
    by_cases hv : digitsVal (c :: run) ≤ USIZE_MAX <;> simp [hv]

theorem nextCore_alpha (c : Char) (cs : List Char) (h : isAsciiAlphabetic c = true) :
    nextCore c cs =
      match keywordLookup (String.mk (c :: (keepReading isAsciiAlphabetic cs).1)) with
      | some t => (LexStep.tok t, (keepReading isAsciiAlphabetic cs).2)
      | none =>
        (LexStep.tok (Token.Identifier
            (String.mk (c :: (keepReading isAsciiAlphabetic cs).1))),
         (keepReading isAsciiAlphabetic cs).2) := by
  obtain ⟨n1, n2, n3, n4, n5, n6, n7, n8, n9, n10, n11, n12, n13, n14⟩ :=
    op_facts c (alpha_not_op c h)
  unfold nextCore
  rw [if_neg n1, if_neg n2, if_neg n3, if_neg n4, if_neg n5, if_neg n6, if_neg n7,
    if_neg n8, if_neg n9, if_neg n10, if_neg n11, if_neg n12, if_neg n13, if_neg n14,
    if_neg (by simp [alpha_not_digit c h]), if_pos h]

theorem nextCore_illegal (c : Char) (cs : List Char)
    (hop : isOperatorChar c = false) (hd : isAsciiDigit c = false)
    (ha : isAsciiAlphabetic c = false) :
    nextCore c cs = (LexStep.tok Token.Illegal, cs) := by
  obtain ⟨n1, n2, n3, n4, n5, n6, n7, n8, n9, n10, n11, n12, n13, n14⟩ := op_facts c hop
  unfold nextCore
  rw [if_neg n1, if_neg n2, if_neg n3, if_neg n4, if_neg n5, if_neg n6, if_neg n7,
    if_neg n8, if_neg n9, if_neg n10, if_neg n11, if_neg n12, if_neg n13, if_neg n14,
    if_neg (by simp [hd]), if_neg (by simp [ha])]

theorem next_eq_nextCore (input : List Char) (c : Char) (cs : List Char)
    (h : skipWhitespace input = c :: cs) : next input = nextCore c cs := by
  simp only [next, h]

theorem next_nil : next [] = (LexStep.eof, []) := rfl

theorem next_eof_state (input s : List Char)
    (h : next input = (LexStep.eof, s)) : s = [] := by
  unfold next at h
  cases hsw : skipWhitespace input with
  | nil =>
    rw [hsw] at h
    simp at h
    exact h
  | cons c cs =>
    rw [hsw] at h
    exact absurd (congrArg Prod.fst h) (by simpa using nextCore_ne_eof c cs)

theorem next_progress (input : List Char) (o : LexStep) (rest : List Char)
    (h : next input = (o, rest)) :
    o = LexStep.eof ∨ rest.length < input.length := by
  unfold next at h
  cases hsw : skipWhitespace input with
  | nil =>
    rw [hsw] at h
    simp at h
    exact Or.inl h.1.symm
  | cons c cs =>
    rw [hsw] at h
    right
    have h' : nextCore c cs = (o, rest) := h
    have h2 := nextCore_length c cs
    rw [h'] at h2
    have h3 := skipWhitespace_length input
    rw [hsw] at h3
    simp at h2 h3
    omega

theorem tokensFuel_stable :
    ∀ fuel fuel' input, input.length < fuel → input.length < fuel' →
      tokensFuel fuel input = tokensFuel fuel' input := by
  intro fuel
  induction fuel with
  | zero => intro fuel' input h _; omega
  | succ f ih =>
    intro fuel' input h h'
    cases fuel' with
    | zero => omega
    | succ f' =>
      cases hn : next input with
      | mk o rest =>
        cases o with
        | tok t =>
          rcases next_progress input _ _ hn with he | hl
          · exact absurd he (by simp)
          · simp only [tokensFuel, hn]
            rw [ih f' rest (by omega) (by omega)]
        | eof => simp only [tokensFuel, hn]
        | panic => simp only [tokensFuel, hn]

theorem tokensFuel_length :
    ∀ fuel input, (tokensFuel fuel input).length ≤ input.length := by
  intro fuel
  induction fuel with
  | zero => intro input; simp [tokensFuel]
  | succ f ih =>
    intro input
    cases hn : next input with
    | mk o rest =>
      cases o with
      | tok t =>
        rcases next_progress input _ _ hn with he | hl
        · exact absurd he (by simp)
        · simp only [tokensFuel, hn, List.length_cons]
          have := ih rest
          omega
      | eof => simp [tokensFuel, hn]
      | panic => simp [tokensFuel, hn]

theorem tokens_length_le (input : List Char) :
    (tokens input).length ≤ input.length :=
  tokensFuel_length (input.length + 1) input

theorem tokensFuel_eq_tokens (fuel : Nat) (input : List Char)
    (h : input.length < fuel) : tokensFuel fuel input = tokens input :=
  tokensFuel_stable fuel (input.length + 1) input h (Nat.lt_succ_self _)

theorem keywordLookup_eq (s : String) :
    keywordLookup s =
      if s = "true" then some Token.True
      else if s = "false" then some Token.False
      else if s = "fn" then some Token.Function
      else if s = "let" then some Token.Let
      else if s = "if" then some Token.If
      else if s = "else" then some Token.Else
      else if s = "return" then some Token.Return
      else none := by
  by_cases h1 : s = "true"
  · subst h1; decide
  by_cases h2 : s = "false"
  · subst h2; decide
  by_cases h3 : s = "fn"
  · subst h3; decide
  by_cases h4 : s = "let"
  · subst h4; decide
  by_cases h5 : s = "if"
  · subst h5; decide
  by_cases h6 : s = "else"
  · subst h6; decide
  by_cases h7 : s = "return"
  · subst h7; decide
  have e1 : (("true" : String) == s) = false := by
    rw [beq_eq_false_iff_ne]; exact fun hh => h1 hh.symm
  have e2 : (("false" : String) == s) = false := by
    rw [beq_eq_false_iff_ne]; exact fun hh => h2 hh.symm
  have e3 : (("fn" : String) == s) = false := by
    rw [beq_eq_false_iff_ne]; exact fun hh => h3 hh.symm
  have e4 : (("let" : String) == s) = false := by
    rw [beq_eq_false_iff_ne]; exact fun hh => h4 hh.symm
  have e5 : (("if" : String) == s) = false := by
    rw [beq_eq_false_iff_ne]; exact fun hh => h5 hh.symm
  have e6 : (("else" : String) == s) = false := by
    rw [beq_eq_false_iff_ne]; exact fun hh => h6 hh.symm
  have e7 : (("return" : String) == s) = false := by
    rw [beq_eq_false_iff_ne]; exact fun hh => h7 hh.symm
  simp only [keywordLookup, KEYWORDS]
  rw [List.find?_cons_of_neg _ (by simpa using e1),
    List.find?_cons_of_neg _ (by simpa using e2),
    List.find?_cons_of_neg _ (by simpa using e3),
    List.find?_cons_of_neg _ (by simpa using e4),
    List.find?_cons_of_neg _ (by simpa using e5),
    List.find?_cons_of_neg _ (by simpa using e6),
    List.find?_cons_of_neg _ (by simpa using e7)]
  simp [h1, h2, h3, h4, h5, h6, h7]

/-- Claim C1 (code bug in the source): on a maximal digit run whose base-10
value exceeds `usize::MAX` (here 2^64, one past the maximum), `Lexer::next`
does not return a recoverable error: `str::parse::<usize>(..).expect(..)`
aborts the process, modelled by the `LexStep.panic` outcome.  This theorem
evaluates the embedded code at the failing input. -/
theorem C1_overflow_aborts :
    next (("18446744073709551616".toList)) = (LexStep.panic, []) ∧
    LexStep.panic ≠ LexStep.eof ∧
    next (("18446744073709551615".toList)) =
      (LexStep.tok (Token.Int 18446744073709551615), []) := by
  refine ⟨by decide, by decide, by decide⟩

/-- Claim C2: when the next non-whitespace character is a bang or an equals
sign, the lexer consumes it, peeks one character; on a peeked equals sign it
consumes that too and emits the combined token, otherwise it emits the
single-character token and leaves the peeked character unconsumed. -/
theorem C2_two_char_lookahead (input rest : List Char) (c : Char)
    (hc : c = '!' ∨ c = '=') (h : skipWhitespace input = c :: rest) :
    (rest.head? = some '=' →
      next input =
        (LexStep.tok (if c = '!' then Token.NotEqual else Token.Equal), rest.tail)) ∧
    (rest.head? ≠ some '=' →
      next input =
        (LexStep.tok (if c = '!' then Token.Bang else Token.Assign), rest)) := by
  have hn := next_eq_nextCore input c rest h
  rcases hc with hc | hc <;> subst hc
  · rw [nextCore_bang] at hn
    constructor
    · intro hh
      cases rest with
      | nil => simp at hh
      | cons r0 r2 =>
        simp at hh
        subst hh
        simpa using hn
    · intro hh
      split at hn
      · simp at hh
      · simpa using hn
  · rw [nextCore_assign] at hn
    constructor
    · intro hh
      cases rest with
      | nil => simp at hh
      | cons r0 r2 =>
        simp at hh
        subst hh
        simpa using hn
    · intro hh
      split at hn
      · simp at hh
      · simpa using hn

/-- Witness for C2 at concrete inputs covering all four outcomes. -/
theorem C2_two_char_lookahead_witness :
    next ['!', '='] = (LexStep.tok Token.NotEqual, []) ∧
    next ['=', '='] = (LexStep.tok Token.Equal, []) ∧
    next ['!', 'a'] = (LexStep.tok Token.Bang, ['a']) ∧
    next ['=', 'a'] = (LexStep.tok Token.Assign, ['a']) := by
  refine ⟨?_, ?_, ?_, ?_⟩
  · have h := (C2_two_char_lookahead ['!', '='] ['='] '!' (Or.inl rfl) (by decide)).1
    simpa using h (by decide)
  · have h := (C2_two_char_lookahead ['=', '='] ['='] '=' (Or.inr rfl) (by decide)).1
    simpa using h (by decide)
  · have h := (C2_two_char_lookahead ['!', 'a'] ['a'] '!' (Or.inl rfl) (by decide)).2
    simpa using h (by decide)
  · have h := (C2_two_char_lookahead ['=', 'a'] ['a'] '=' (Or.inr rfl) (by decide)).2
    simpa using h (by decide)

/-- Claim C7: once `next` has signalled end of sequence, the cursor is empty
and stays empty, so every later call also signals end of sequence. -/
theorem C7_eof_terminal (input s : List Char)
    (h : next input = (LexStep.eof, s)) :
    s = [] ∧ next s = (LexStep.eof, s) := by
  have hs := next_eof_state input s h
  subst hs
  exact ⟨rfl, rfl⟩

/-- Witness for C7: exhausting a whitespace-only input. -/
theorem C7_eof_terminal_witness :
    ([] : List Char) = [] ∧ next [] = (LexStep.eof, []) :=
  C7_eof_terminal [' '] [] (by decide)

/-- Claim C8: every `next` call either signals exhaustion or strictly
shrinks the cursor, the drained token list of an input of length N has at
most N tokens, and draining with any sufficient fuel is stable (tokenization
terminates). -/
theorem C8_termination (input : List Char) :
    (∀ o rest, next input = (o, rest) → o = LexStep.eof ∨ rest.length < input.length) ∧
    (tokens input).length ≤ input.length ∧
    ∀ fuel, input.length < fuel → tokensFuel fuel input = tokens input :=
  ⟨fun o rest h => next_progress input o rest h, tokens_length_le input,
   fun fuel h => tokensFuel_eq_tokens fuel input h⟩

/-- Witness for C8 on a concrete input containing an unrecognized character. -/
theorem C8_termination_witness :
    (tokens (("?1a".toList))).length ≤ 3 ∧
    tokensFuel 10 (("?1a".toList)) = tokens (("?1a".toList)) :=
  ⟨(C8_termination (("?1a".toList))).2.1,
   (C8_termination (("?1a".toList))).2.2 10 (by decide)⟩

/-- Claim C10: a trailing bang or equals sign (nothing left to peek) emits
the single-character token, and the very next call signals end of
sequence. -/
theorem C10_lookahead_at_end (input : List Char) (c : Char)
    (hc : c = '!' ∨ c = '=') (h : skipWhitespace input = [c]) :
    next input = (LexStep.tok (if c = '!' then Token.Bang else Token.Assign), []) ∧
    next (next input).2 = (LexStep.eof, []) := by
  have hn := next_eq_nextCore input c [] h
  rcases hc with hc | hc <;> subst hc
  · rw [nextCore_bang] at hn
    have hn' : next input = (LexStep.tok Token.Bang, []) := by simpa using hn
    exact ⟨by simpa using hn', by rw [hn']; rfl⟩
  · rw [nextCore_assign] at hn
    have hn' : next input = (LexStep.tok Token.Assign, []) := by simpa using hn
    exact ⟨by simpa using hn', by rw [hn']; rfl⟩

/-- Witness for C10 on the inputs consisting of just the operator. -/
theorem C10_lookahead_at_end_witness :
    (next ['!'] = (LexStep.tok Token.Bang, []) ∧
      next (next ['!']).2 = (LexStep.eof, [])) ∧
    (next ['='] = (LexStep.tok Token.Assign, []) ∧
      next (next ['=']).2 = (LexStep.eof, [])) := by
  constructor
  · have h := C10_lookahead_at_end ['!'] '!' (Or.inl rfl) (by decide)
    simpa using h
  · have h := C10_lookahead_at_end ['='] '=' (Or.inr rfl) (by decide)
    simpa using h

/-- Claim C3: a maximal run of ASCII letters yields exactly one token for
the whole run, consuming exactly the run: the reserved-word token when the
run equals one of the seven keywords, otherwise an identifier carrying
exactly the run's text. -/
theorem C3_alpha_run (run rest : List Char)
    (hne : run ≠ [])
    (hrun : ∀ c ∈ run, isAsciiAlphabetic c = true)
    (hmax : ∀ c, rest.head? = some c → isAsciiAlphabetic c = false) :
    next (run ++ rest) =
      (LexStep.tok
        (if String.mk run = "true" then Token.True
         else if String.mk run = "false" then Token.False
         else if String.mk run = "fn" then Token.Function
         else if String.mk run = "let" then Token.Let
         else if String.mk run = "if" then Token.If
         else if String.mk run = "else" then Token.Else
         else if String.mk run = "return" then Token.Return
         else Token.Identifier (String.mk run)), rest) := by
  cases run with
  | nil => exact absurd rfl hne
  | cons c run' =>
    have hc : isAsciiAlphabetic c = true := hrun c (List.mem_cons_self c run')
    have hsw : skipWhitespace ((c :: run') ++ rest) = (c :: run') ++ rest :=
      skipWhitespace_cons_of_not_ws c (run' ++ rest) (alpha_not_ws c hc)
    have hn := next_eq_nextCore ((c :: run') ++ rest) c (run' ++ rest) hsw
    rw [nextCore_alpha c (run' ++ rest) hc,
      keepReading_append isAsciiAlphabetic run' rest
        (fun x hx => hrun x (List.mem_cons_of_mem c hx)) hmax] at hn
    have hn' :
        next ((c :: run') ++ rest) =
          match keywordLookup (String.mk (c :: run')) with
          | some t => (LexStep.tok t, rest)
          | none => (LexStep.tok (Token.Identifier (String.mk (c :: run'))), rest) := hn
    rw [hn', keywordLookup_eq]
    split_ifs <;> simp

/-- Witness for C3: a keyword run and an identifier run extending one. -/
theorem C3_alpha_run_witness :
    next (("letx".toList)) = (LexStep.tok (Token.Identifier "letx"), []) ∧
    next (['l', 'e', 't'] ++ [';']) = (LexStep.tok Token.Let, [';']) := by
  constructor
  · have h := C3_alpha_run ['l', 'e', 't', 'x'] [] (by decide) (by decide)
      (by intro c hc; simp at hc)
    revert h
    decide
  · have h := C3_alpha_run ['l', 'e', 't'] [';'] (by decide) (by decide)
      (by intro c hc; simp at hc; subst hc; decide)
    revert h
    decide

/-- Claim C4, amended: a maximal run of decimal digits whose base-10 value
fits in `usize` yields exactly one integer-literal token carrying the full
value of the run, consuming exactly the run.  (Without the fits-in-`usize`
hypothesis the claim is false: see the counterexample, where the source
aborts instead.) -/
theorem C4_digit_run (run rest : List Char)
    (hne : run ≠ [])
    (hrun : ∀ c ∈ run, isAsciiDigit c = true)
    (hmax : ∀ c, rest.head? = some c → isAsciiDigit c = false)
    (hfit : digitsVal run ≤ USIZE_MAX) :
    next (run ++ rest) = (LexStep.tok (Token.Int (digitsVal run)), rest) := by
  cases run with
  | nil => exact absurd rfl hne
  | cons c run' =>
    have hc : isAsciiDigit c = true := hrun c (List.mem_cons_self c run')
    have hsw : skipWhitespace ((c :: run') ++ rest) = (c :: run') ++ rest :=
      skipWhitespace_cons_of_not_ws c (run' ++ rest) (digit_not_ws c hc)
    have hn := next_eq_nextCore ((c :: run') ++ rest) c (run' ++ rest) hsw
    rw [nextCore_digit c (run' ++ rest) hc,
      keepReading_append isAsciiDigit run' rest
        (fun x hx => hrun x (List.mem_cons_of_mem c hx)) hmax] at hn
    have hn' :
        next ((c :: run') ++ rest) =
          if digitsVal (c :: run') ≤ USIZE_MAX then
            (LexStep.tok (Token.Int (digitsVal (c :: run'))), rest)
          else (LexStep.panic, rest) := hn
    exact hn'.trans (if_pos hfit)

/-- Counterexample for C4 as frozen: on the maximal digit run of 23 nines the
lexer does not produce an integer-literal token with the run's value; the
`.expect` aborts (panic outcome). -/
theorem C4_digit_run_counterexample :
    next (("99999999999999999999999".toList)) ≠
      (LexStep.tok (Token.Int (digitsVal (("99999999999999999999999".toList)))), []) ∧
    next (("99999999999999999999999".toList)) = (LexStep.panic, []) := by
  exact ⟨by decide, by decide⟩

/-- Witness for C4 on the spec's own example run. -/
theorem C4_digit_run_witness :
    next (("123".toList)) = (LexStep.tok (Token.Int 123), []) := by
  have h := C4_digit_run ['1', '2', '3'] [] (by decide) (by decide)
    (by intro c hc; simp at hc) (by decide)
  revert h
  decide

/-- Claim C5, amended: a character outside every recognized class — operator
or punctuation starter, decimal digit, ASCII letter, and the implementation's
whitespace class, which is Unicode White_Space (`char::is_whitespace`), not
just space, tab, newline and carriage return — produces the Illegal token
and the scan advances past exactly that one character. -/
theorem C5_illegal_char (c : Char) (rest : List Char)
    (hop : isOperatorChar c = false) (hd : isAsciiDigit c = false)
    (ha : isAsciiAlphabetic c = false) (hw : rustIsWhitespace c = false) :
    next (c :: rest) = (LexStep.tok Token.Illegal, rest) := by
  have hn := next_eq_nextCore (c :: rest) c rest
    (skipWhitespace_cons_of_not_ws c rest hw)
  rw [nextCore_illegal c rest hop hd ha] at hn
  exact hn

/-- Counterexample for C5 as frozen: the vertical tab U+000B is none of the
recognized operator characters, not a digit, not a letter, and not one of
the four whitespace characters the claim lists, yet the lexer silently skips
it (it is Unicode whitespace) and signals end of sequence instead of
emitting Illegal. -/
theorem C5_illegal_char_counterexample :
    isOperatorChar '\x0b' = false ∧ isAsciiDigit '\x0b' = false ∧
    isAsciiAlphabetic '\x0b' = false ∧
    '\x0b' ∉ ([' ', '\t', '\n', '\r'] : List Char) ∧
    next ['\x0b'] = (LexStep.eof, []) ∧
    next ['\x0b'] ≠ (LexStep.tok Token.Illegal, []) := by
  refine ⟨by decide, by decide, by decide, by decide, by decide, by decide⟩

/-- Witness for C5 (amended) at a plain unrecognized ASCII character. -/
theorem C5_illegal_char_witness :
    next ['?'] = (LexStep.tok Token.Illegal, []) :=
  C5_illegal_char '?' [] (by decide) (by decide) (by decide) (by decide)

/-- Claim C6: the two scenario drains from the spec and the source's tests,
with the source's token names (`LeftParen` is `Lparen`, `LeftBrace` is
`Lsquirlybrace`, `IntegerLiteral` is `Int`). -/
theorem C6_scenarios :
    tokens ['=', '+', '(', ')', '\x7b', '\x7d', ',', ';'] =
      [Token.Assign, Token.Plus, Token.Lparen, Token.Rparen,
       Token.Lsquirlybrace, Token.Rsquirlybrace, Token.Comma, Token.Semicolon] ∧
    tokens (("!-/*5;".toList)) =
      [Token.Bang, Token.Minus, Token.Slash, Token.Asterisk, Token.Int 5,
       Token.Semicolon] := by
  exact ⟨by decide, by decide⟩

theorem nextCore_identifier_inv (c : Char) (cs : List Char) (s : String)
    (rest : List Char)
    (h : nextCore c cs = (LexStep.tok (Token.Identifier s), rest)) :
    isAsciiAlphabetic c = true ∧
    s = String.mk (c :: (keepReading isAsciiAlphabetic cs).1) ∧
    s ≠ "true" ∧ s ≠ "false" ∧ s ≠ "fn" ∧ s ≠ "let" ∧ s ≠ "if" ∧ s ≠ "else" ∧
    s ≠ "return" := by
  by_cases h16 : isAsciiAlphabetic c = true
  · rw [nextCore_alpha c cs h16, keywordLookup_eq] at h
    split_ifs at h with k1 k2 k3 k4 k5 k6 k7
    · simp at h
    · simp at h
    · simp at h
    · simp at h
    · simp at h
    · simp at h
    · simp at h
    · simp only [Prod.mk.injEq, LexStep.tok.injEq, Token.Identifier.injEq] at h
      obtain ⟨hs, -⟩ := h
      subst hs
      exact ⟨h16, rfl, k1, k2, k3, k4, k5, k6, k7⟩
  · exfalso
    unfold nextCore at h
    by_cases h1 : c = '*'
    · rw [if_pos h1] at h; simp at h
    rw [if_neg h1] at h
    by_cases h2 : c = '!'
    · rw [if_pos h2] at h; split at h <;> simp at h
    rw [if_neg h2] at h
    by_cases h3 : c = '/'
    · rw [if_pos h3] at h; simp at h
    rw [if_neg h3] at h
    by_cases h4 : c = '>'
    · rw [if_pos h4] at h; simp at h
    rw [if_neg h4] at h
    by_cases h5 : c = '<'
    · rw [if_pos h5] at h; simp at h
    rw [if_neg h5] at h
    by_cases h6 : c = '-'
    · rw [if_pos h6] at h; simp at h
    rw [if_neg h6] at h
    by_cases h7 : c = '+'
    · rw [if_pos h7] at h; simp at h
    rw [if_neg h7] at h
    by_cases h8 : c = ','
    · rw [if_pos h8] at h; simp at h
    rw [if_neg h8] at h
    by_cases h9 : c = '='
    · rw [if_pos h9] at h; split at h <;> simp at h
    rw [if_neg h9] at h
    by_cases h10 : c = ';'
    · rw [if_pos h10] at h; simp at h
    rw [if_neg h10] at h
    by_cases h11 : c = '('
    · rw [if_pos h11] at h; simp at h
    rw [if_neg h11] at h
    by_cases h12 : c = ')'
    · rw [if_pos h12] at h; simp at h
    rw [if_neg h12] at h
    by_cases h13 : c = '\x7b'
    · rw [if_pos h13] at h; simp at h
    rw [if_neg h13] at h
    by_cases h14 : c = '\x7d'
    · rw [if_pos h14] at h; simp at h
    rw [if_neg h14] at h
    by_cases h15 : isAsciiDigit c = true
    · rw [if_pos h15] at h
      split at h
      · split at h <;> simp at h
    rw [if_neg h15, if_neg h16] at h
    simp at h

theorem next_identifier_inv (input rest : List Char) (s : String)
    (h : next input = (LexStep.tok (Token.Identifier s), rest)) :
    s.toList ≠ [] ∧ (∀ c ∈ s.toList, isAsciiAlphabetic c = true) ∧
    s ≠ "true" ∧ s ≠ "false" ∧ s ≠ "fn" ∧ s ≠ "let" ∧ s ≠ "if" ∧ s ≠ "else" ∧
    s ≠ "return" := by
  unfold next at h
  cases hsw : skipWhitespace input with
  | nil => rw [hsw] at h; simp at h
  | cons c cs =>
    rw [hsw] at h
    have h' : nextCore c cs = (LexStep.tok (Token.Identifier s), rest) := h
    obtain ⟨ha, hs, d1, d2, d3, d4, d5, d6, d7⟩ := nextCore_identifier_inv c cs s rest h'
    refine ⟨?_, ?_, d1, d2, d3, d4, d5, d6, d7⟩
    · rw [hs]; simp
    · rw [hs]
      intro x hx
      rcases List.mem_cons.mp hx with h'' | h''
      · subst h''; exact ha
      · exact keepReading_mem isAsciiAlphabetic cs x h''

/-- Claim C9: every Identifier token the tokenizer ever produces carries a
non-empty, all-ASCII-alphabetic string that is none of the seven reserved
words. -/
theorem C9_identifier_invariant (input : List Char) (s : String)
    (h : Token.Identifier s ∈ tokens input) :
    s.toList ≠ [] ∧ (∀ c ∈ s.toList, isAsciiAlphabetic c = true) ∧
    s ≠ "true" ∧ s ≠ "false" ∧ s ≠ "fn" ∧ s ≠ "let" ∧ s ≠ "if" ∧ s ≠ "else" ∧
    s ≠ "return" := by
  have main : ∀ fuel input, Token.Identifier s ∈ tokensFuel fuel input →
      s.toList ≠ [] ∧ (∀ c ∈ s.toList, isAsciiAlphabetic c = true) ∧
      s ≠ "true" ∧ s ≠ "false" ∧ s ≠ "fn" ∧ s ≠ "let" ∧ s ≠ "if" ∧ s ≠ "else" ∧
      s ≠ "return" := by
    intro fuel
    induction fuel with
    | zero => intro input hmem; simp [tokensFuel] at hmem
    | succ f ih =>
      intro input hmem
      cases hn : next input with
      | mk o rest =>
        cases o with
        | tok t =>
          simp only [tokensFuel, hn] at hmem
          rcases List.mem_cons.mp hmem with he | hm
          · exact next_identifier_inv input rest s (he ▸ hn)
          · exact ih rest hm
        | eof => simp [tokensFuel, hn] at hmem
        | panic => simp [tokensFuel, hn] at hmem
  exact main (input.length + 1) input h

/-- Witness for C9 on a drained identifier. -/
theorem C9_identifier_invariant_witness :
    (("xy".toList) ≠ [] ∧
      (∀ c ∈ ("xy".toList), isAsciiAlphabetic c = true) ∧
      ("xy" : String) ≠ "true" ∧ ("xy" : String) ≠ "false" ∧
      ("xy" : String) ≠ "fn" ∧ ("xy" : String) ≠ "let" ∧
      ("xy" : String) ≠ "if" ∧ ("xy" : String) ≠ "else" ∧
      ("xy" : String) ≠ "return") :=
  C9_identifier_invariant (("xy".toList)) "xy" (by decide)

end Gspot
